import Mathlib

/-!
Verification development for the goroutine-inspect dump model
(`goroutine.go`).  Go strings are modelled as lists of byte values
(`GoStr`); all byte constants below are ASCII codes.  Stateful methods on
`Goroutine` / `GoroutineDump` are modelled as pure state-passing
functions.  Go map iteration order (used by `Dedupe` and `Diff`) is
unspecified at runtime, so the corresponding functions take the key
iteration order as an explicit parameter, constrained to be a
permutation of the map's key set.
-/

/-- Go string, as its byte sequence. -/
abbrev GoStr := List Nat

/-- Bytes of an ASCII Lean string literal (used only to build concrete
test inputs). -/
def gostr (s : String) : GoStr := s.data.map Char.toNat

/-! ## The scrub pattern

`goroutine.go` line 72: `lineWithArgs = regexp.MustCompile`, with pattern
`\((0x[0-9a-f ,]+)+\)$`.  The pattern is anchored at end of text, so a
match is a suffix of the line; Go's leftmost-match rule picks the longest
matching suffix.  We model the inner expression `(0x[0-9a-f ,]+)+` by a
DFA obtained from the obvious NFA by subset construction (states 0..4,
3 and 4 accepting; any byte not listed is a dead transition). -/

/-- Character class `[0-9a-f ,]` of the argument pattern. -/
def hexArgByte (b : Nat) : Bool :=
  (48 ≤ b && b ≤ 57) || (97 ≤ b && b ≤ 102) || b == 32 || b == 44

/-- DFA transition for `(0x[0-9a-f ,]+)+`; byte 48 is the character 0 and
byte 120 is the character x. -/
def argStep : Nat → Nat → Option Nat
  | 0, b => if b == 48 then some 1 else none
  | 1, b => if b == 120 then some 2 else none
  | 2, b => if hexArgByte b then some 3 else none
  | 3, b => if b == 48 then some 4 else if hexArgByte b then some 3 else none
  | 4, b =>
    if b == 48 then some 4
    else if b == 120 then some 2
    else if hexArgByte b then some 3
    else none
  | _, _ => none

/-- Run the argument DFA from a state over a byte list. -/
def argRun : Nat → GoStr → Option Nat
  | s, [] => some s
  | s, b :: rest =>
    match argStep s b with
    | none => none
    | some s2 => argRun s2 rest

/-- Acceptance of `(0x[0-9a-f ,]+)+` (DFA states 3 and 4 accept). -/
def argAccept (cs : GoStr) : Bool :=
  match argRun 0 cs with
  | some 3 => true
  | some 4 => true
  | _ => false

/-- Whole-string match of `\((0x[0-9a-f ,]+)+\)`: byte 40 is the
character ( and byte 41 is the character ). -/
def parenArgGroup (cs : GoStr) : Bool :=
  match cs with
  | 40 :: rest => rest.getLast? == some 41 && argAccept rest.dropLast
  | _ => false

/-- Start index of the leftmost match of `lineWithArgs` in `l` (every
match is anchored at the end of the line, so the leftmost match is the
longest suffix in the language). -/
def findMatchStart (l : GoStr) : Option Nat :=
  (List.range (l.length + 1)).find? (fun i => parenArgGroup (l.drop i))

/-- One line of `AddLine` scrubbing (`goroutine.go` lines 80-85): if the
line matches `lineWithArgs`, `regexp.Split` yields the part before the
match, to which the placeholder `(...)` (bytes 40 46 46 46 41) is
appended; otherwise the line is unchanged. -/
def scrubLine (l : GoStr) : GoStr :=
  match findMatchStart l with
  | some i => l.take i ++ [40, 46, 46, 46, 41]
  | none => l

/-! ## The record type -/

/-- The `Goroutine` record (`goroutine.go` lines 56-70).  The Go field
`metas` (a map keyed by `MetaState` / `MetaDuration`) is modelled by the
two fields `metaState` and `metaDuration`.  The Go field `fullHasher` is
an `md5.New()` hasher that the source never writes any data to, so it
carries no varying state and is not a field here; its only use,
`fullHasher.Sum(...)` in `Freeze`, appends the fixed MD5 digest of the
empty input (see `md5EmptyDigest`). -/
structure Goroutine where
  id : Int
  header : GoStr
  lines : Int
  duration : Int
  metaState : GoStr
  metaDuration : Option GoStr
  scrubbedHash : GoStr
  bufScrubbed : GoStr
  duplicates : List Int
  frozen : Bool
  buf : GoStr
  deriving DecidableEq, Repr, Inhabited

/-- `Goroutine.AddLine` (`goroutine.go` lines 75-95).  Byte 10 is the
newline appended by `WriteString(l + "\n")`.  The trailing
`strings.HasPrefix(l, "\t")` block in the source only prints a
diagnostic and returns; it changes no state, so it does not appear
here. -/
def AddLine (g : Goroutine) (l : GoStr) : Goroutine :=
  if g.frozen then g
  else
    { g with
      lines := g.lines + 1
      buf := g.buf ++ l ++ [10]
      bufScrubbed := g.bufScrubbed ++ scrubLine l ++ [10] }

/-- Lowercase hex digit of a value below 16 (bytes 48-57 are 0-9 and
bytes 97-102 are a-f). -/
def hexDigitByte (n : Nat) : Nat := if n < 10 then 48 + n else 87 + n

/-- `hex.EncodeToString` over a byte sequence. -/
def hexEncode (bs : GoStr) : GoStr :=
  bs.flatMap (fun b => [hexDigitByte (b / 16), hexDigitByte (b % 16)])

/-- The MD5 digest of the empty input,
d41d8cd98f00b204e9800998ecf8427e.  `Freeze` computes
`fullHasher.Sum(bufScrubbed.Bytes())` where `fullHasher` is an MD5
hasher that was never fed any data; `Sum(b)` in Go appends the digest of
the data written so far (here: none) to `b`. -/
def md5EmptyDigest : GoStr :=
  [212, 29, 140, 217, 143, 0, 178, 4, 233, 128, 9, 152, 236, 248, 66, 126]

/-- `Goroutine.Freeze` (`goroutine.go` lines 98-103). -/
def Freeze (g : Goroutine) : Goroutine :=
  if g.frozen then g
  else
    { g with
      frozen := true
      scrubbedHash := hexEncode (g.bufScrubbed ++ md5EmptyDigest) }

/-- Fold `AddLine` over a list of body lines. -/
def addLines (g : Goroutine) (ls : List GoStr) : Goroutine :=
  ls.foldl AddLine g

/-! ## The record parser -/

/-- ASCII whitespace trimmed by `strings.TrimSpace` (the Unicode
whitespace code points only arise from multi-byte sequences, which never
occur in the dump metadata this parser consumes). -/
def isSpaceByte (b : Nat) : Bool :=
  b == 32 || b == 9 || b == 10 || b == 11 || b == 12 || b == 13

/-- `strings.TrimSpace`. -/
def trimSpace (s : GoStr) : GoStr :=
  ((s.dropWhile isSpaceByte).reverse.dropWhile isSpaceByte).reverse

/-- `strings.Index(s, b)` for a single-byte needle, as an optional index
(`none` models the Go result -1). -/
def indexOfByte (s : GoStr) (b : Nat) : Option Nat :=
  s.findIdx? (· == b)

/-- `strings.Split(s, ",")`, returned as first part plus remaining parts
(so that the result is nonempty by construction, as in Go).  Byte 44 is
the comma. -/
def splitComma : GoStr → GoStr × List GoStr
  | [] => ([], [])
  | b :: rest =>
    let p := splitComma rest
    if b == 44 then ([], p.1 :: p.2) else (b :: p.1, p.2)

/-- All bytes are decimal digits. -/
def allDigits (s : GoStr) : Bool := s.all (fun b => 48 ≤ b && b ≤ 57)

/-- Numeric value of a digit string. -/
def digitsVal (s : GoStr) : Nat := s.foldl (fun a b => a * 10 + (b - 48)) 0

/-- `strconv.Atoi` on a 64-bit platform: optional sign (bytes 43 and 45
are + and -), then one or more decimal digits, value within the int64
range; `none` models a non-nil error (syntax or range). -/
def Atoi (s : GoStr) : Option Int :=
  match s with
  | [] => none
  | b :: rest =>
    let neg := b == 45
    let ds := if b == 45 || b == 43 then rest else s
    if ds.isEmpty || !allDigits ds then none
    else
      let v := digitsVal ds
      if neg then (if v ≤ 2 ^ 63 then some (-(v : Int)) else none)
      else (if v ≤ 2 ^ 63 - 1 then some (v : Int) else none)

/-- The byte sequence of the eight characters of " minutes". -/
def minutesSuffix : GoStr := [32, 109, 105, 110, 117, 116, 101, 115]

/-- The strict pattern `^\d+ minutes$` (`durationPattern`,
`goroutine.go` line 28). -/
def durationMatch (v : GoStr) : Bool :=
  9 ≤ v.length && v.drop (v.length - 8) == minutesSuffix
    && allDigits (v.take (v.length - 8))

/-- Result of `NewGoroutine`: a runtime panic (out-of-range string
slice), a non-nil error return, or a fresh record. -/
inductive NGRes where
  | panics : NGRes
  | fails : NGRes
  | ok : Goroutine → NGRes
  deriving DecidableEq, Repr, Inhabited

/-- `NewGoroutine` (`goroutine.go` lines 129-164).  Byte 91 is the
character [.  The Go slice `metaline[idx+1 : len-2]` panics unless
`0 ≤ idx+1 ≤ len-2 ≤ len`, and `metaline[9:idx]` panics unless
`9 ≤ idx` (with `idx = -1` when no bracket exists); the two slices are
evaluated in that order. -/
def NewGoroutine (m : GoStr) : NGRes :=
  let n := m.length
  let idxO := indexOfByte m 91
  let start := match idxO with | none => 0 | some i => i + 1
  if 2 ≤ n ∧ start + 2 ≤ n then
    let seg := (m.take (n - 2)).drop start
    let parts := splitComma seg
    let duration : Int :=
      match parts.2 with
      | [] => 0
      | p1 :: _ =>
        let v := trimSpace p1
        if durationMatch v then (Atoi (v.take (v.length - 8))).getD 0 else 0
    match idxO with
    | none => NGRes.panics
    | some i =>
      if i < 9 then NGRes.panics
      else
        match Atoi (trimSpace ((m.take i).drop 9)) with
        | none => NGRes.fails
        | some idv =>
          NGRes.ok
            { id := idv
              header := m
              lines := 1
              duration := duration
              metaState := trimSpace parts.1
              metaDuration :=
                match parts.2 with
                | [] => none
                | p1 :: _ => some (trimSpace p1)
              scrubbedHash := []
              bufScrubbed := []
              duplicates := []
              frozen := false
              buf := [] }
  else NGRes.panics

/-! ## The predicate evaluation subsystem

The expression engine itself (`govaluate`) is an external library; the
repository's own code builds the parameter map, registers the three
functions of the `functions` table, and routes results and errors.  We
therefore model a compiled expression abstractly as a function from the
parameter map to an evaluation outcome, and model the three registered
functions concretely from their source. -/

/-- A value passed to or returned by an expression function.  Numbers in
govaluate are float64; the claims under study only depend on whether a
value is a string, so the numeric payload is modelled as `Int`. -/
inductive Value where
  | num : Int → Value
  | str : GoStr → Value
  | boolean : Bool → Value
  deriving DecidableEq, Repr

/-- Error message, as in Go. -/
abbrev GoErr := String

/-- Outcome of calling one registered expression function: a returned
value, a returned non-nil error, or a runtime panic (from a failed
`.(string)` type assertion). -/
inductive FnRes where
  | ok : Value → FnRes
  | err : GoErr → FnRes
  | panics : FnRes
  deriving DecidableEq, Repr

/-- `strings.Index` for list-of-byte strings: first index of `needle` as
a substring of `haystack`, or -1. -/
def strIndex (haystack needle : GoStr) : Int :=
  match (List.range (haystack.length + 1)).find?
      (fun i => decide ((haystack.drop i).take needle.length = needle)) with
  | some i => (i : Int)
  | none => -1

/-- The `contains` entry of the `functions` table (`goroutine.go` lines
31-37): arity check first, then unchecked `.(string)` assertions on both
arguments (a non-string argument panics). -/
def containsFn (args : List Value) : FnRes :=
  if args.length ≠ 2 then FnRes.err "contains() accepts exactly two arguments"
  else
    match args with
    | [Value.str a, Value.str b] => FnRes.ok (Value.boolean (strIndex a b > -1))
    | _ => FnRes.panics

/-- ASCII lowering done by `strings.ToLower` (bytes 65-90 are A-Z). -/
def toLowerByte (b : Nat) : Nat := if 65 ≤ b && b ≤ 90 then b + 32 else b

/-- ASCII raising done by `strings.ToUpper` (bytes 97-122 are a-z). -/
def toUpperByte (b : Nat) : Nat := if 97 ≤ b && b ≤ 122 then b - 32 else b

/-- The `lower` entry of the `functions` table (`goroutine.go` lines
38-44). -/
def lowerFn (args : List Value) : FnRes :=
  if args.length ≠ 1 then FnRes.err "lower() accepts exactly one arguments"
  else
    match args with
    | [Value.str a] => FnRes.ok (Value.str (a.map toLowerByte))
    | _ => FnRes.panics

/-- The `upper` entry of the `functions` table (`goroutine.go` lines
45-51). -/
def upperFn (args : List Value) : FnRes :=
  if args.length ≠ 1 then FnRes.err "upper() accepts exactly one arguments"
  else
    match args with
    | [Value.str a] => FnRes.ok (Value.str (a.map toUpperByte))
    | _ => FnRes.panics

/-- The parameter map built for each record by `withCondition`
(`goroutine.go` lines 376-383). -/
structure Params where
  id : Int
  dups : Int
  duration : Int
  lines : Int
  state : GoStr
  trace : GoStr
  deriving DecidableEq, Repr

/-- Parameter map of one record (`dups` is `len(g.duplicates)` and
`trace` is `g.buf.String()`). -/
def mkParams (g : Goroutine) : Params :=
  { id := g.id
    dups := (g.duplicates.length : Int)
    duration := g.duration
    lines := g.lines
    state := g.metaState
    trace := g.buf }

/-- Outcome of `expression.Evaluate(params)` for one record. -/
inductive EvalResult where
  | ok : Value → EvalResult
  | err : GoErr → EvalResult
  | panics : EvalResult
  deriving DecidableEq, Repr

/-- A compiled govaluate expression, abstracted as its evaluation
behaviour on a parameter map. -/
abbrev Evaluator := Params → EvalResult

/-- Lift of a registered function's outcome to the outcome of an
`Evaluate` call that invokes it: returned errors become evaluation
errors, panics propagate. -/
def liftFn : FnRes → EvalResult
  | FnRes.ok v => EvalResult.ok v
  | FnRes.err e => EvalResult.err e
  | FnRes.panics => EvalResult.panics

/-- Outcome of a collection operation: normal result, returned error, or
crash by propagated panic. -/
inductive CallRes (α : Type) where
  | ok : α → CallRes α
  | err : GoErr → CallRes α
  | panics : CallRes α
  deriving DecidableEq, Repr

/-- The per-record loop of `withCondition` (`goroutine.go` lines
374-395): evaluate the expression on the record's parameter map; a
non-nil evaluation error aborts the whole call, a non-boolean result
aborts with the fixed message, and otherwise the callback decides
whether (and which) record is appended to the output slice. -/
def runCond (f : Evaluator) (cb : Nat → Goroutine → Bool → Option Goroutine) :
    Nat → List Goroutine → CallRes (List Goroutine)
  | _, [] => CallRes.ok []
  | i, g :: rest =>
    match f (mkParams g) with
    | EvalResult.panics => CallRes.panics
    | EvalResult.err e => CallRes.err e
    | EvalResult.ok (Value.boolean b) =>
      match runCond f cb (i + 1) rest with
      | CallRes.ok l =>
        CallRes.ok (match cb i g b with | some x => x :: l | none => l)
      | r => r
    | EvalResult.ok _ => CallRes.err "argument expression should return a boolean"

/-- `GoroutineDump.withCondition` (`goroutine.go` lines 367-398).  The
`compiled` argument stands for the result of
`govaluate.NewEvaluableExpressionWithFunctions` on the quote-trimmed
condition string: either a compile error or an evaluator. -/
def withCondition (compiled : Except GoErr Evaluator) (gs : List Goroutine)
    (cb : Nat → Goroutine → Bool → Option Goroutine) : CallRes (List Goroutine) :=
  match compiled with
  | Except.error e => CallRes.err e
  | Except.ok f => runCond f cb 0 gs

/-- `GoroutineDump.Delete` (`goroutine.go` lines 229-241), as (returned
outcome, resulting record sequence): the sequence is replaced only when
`withCondition` returns without error. -/
def Delete (compiled : Except GoErr Evaluator) (gs : List Goroutine) :
    CallRes Unit × List Goroutine :=
  match withCondition compiled gs (fun _ g passed => if passed then none else some g) with
  | CallRes.ok l => (CallRes.ok (), l)
  | CallRes.err e => (CallRes.err e, gs)
  | CallRes.panics => (CallRes.panics, gs)

/-- `GoroutineDump.Keep` (`goroutine.go` lines 264-276). -/
def Keep (compiled : Except GoErr Evaluator) (gs : List Goroutine) :
    CallRes Unit × List Goroutine :=
  match withCondition compiled gs (fun _ g passed => if passed then some g else none) with
  | CallRes.ok l => (CallRes.ok (), l)
  | CallRes.err e => (CallRes.err e, gs)
  | CallRes.panics => (CallRes.panics, gs)

/-- The non-empty-condition path of `GoroutineDump.Copy` (`goroutine.go`
lines 186-198): an expression error is printed and `nil` is returned (no
error value escapes), a panic propagates. -/
def CopyCond (compiled : Except GoErr Evaluator) (gs : List Goroutine) :
    CallRes (Option (List Goroutine)) :=
  match withCondition compiled gs (fun _ g passed => if passed then some g else none) with
  | CallRes.ok l => CallRes.ok (some l)
  | CallRes.err _ => CallRes.ok none
  | CallRes.panics => CallRes.panics

/-- The traversal of `GoroutineDump.Search` (`goroutine.go` lines
295-311): its callback only prints and always returns `nil`, so the call
yields no records; expression errors are printed, panics propagate. -/
def SearchCond (compiled : Except GoErr Evaluator) (gs : List Goroutine) :
    CallRes Unit :=
  match withCondition compiled gs (fun _ _ _ => none) with
  | CallRes.panics => CallRes.panics
  | _ => CallRes.ok ()

/-! ## Dedupe

`GoroutineDump.Dedupe` (`goroutine.go` lines 204-226) builds a map from
fingerprint to the identities carrying it (in collection order), then
iterates that map: for each fingerprint it finds the first record of the
collection with that fingerprint, overwrites that record's `duplicates`
field in place with the group's identity list, and appends it to `kept`.
The collection's sequence is replaced by `kept` only when the lengths
differ.  Go map iteration order is unspecified, so the model takes the
order `σ` in which the fingerprints are visited as a parameter;
`KeyOrder` states that `σ` enumerates exactly the distinct fingerprints
of the collection. -/

/-- Admissible iteration orders of the fingerprint map's keys. -/
def KeyOrder (gs : List Goroutine) (σ : List GoStr) : Prop :=
  σ.Nodup ∧ (∀ d ∈ σ, d ∈ gs.map (fun g => g.scrubbedHash))
    ∧ (∀ d ∈ gs.map (fun g => g.scrubbedHash), d ∈ σ)

/-- The identity list `m[d]` of the fingerprint map: identities of all
records with fingerprint `d`, in collection order. -/
def groupIds (gs : List Goroutine) (d : GoStr) : List Int :=
  (gs.filter (fun g => g.scrubbedHash == d)).map (fun g => g.id)

/-- In-place effect of the Dedupe loop on the original sequence: the
first record of each fingerprint group gets its `duplicates` field
overwritten with the group's identity list; later members are
untouched.  `full` is the whole collection (used to compute the group),
`seen` accumulates fingerprints already visited. -/
def markFirsts (full : List Goroutine) : List Goroutine → List GoStr → List Goroutine
  | [], _ => []
  | g :: rest, seen =>
    (if g.scrubbedHash ∈ seen then g
     else { g with duplicates := groupIds full g.scrubbedHash })
      :: markFirsts full rest (g.scrubbedHash :: seen)

/-- The `kept` slice built by the Dedupe loop when the fingerprints are
visited in order `σ`: for each fingerprint, the first record of the
collection carrying it, with its `duplicates` field overwritten by the
group's identity list. -/
def keptOf (gs : List Goroutine) (σ : List GoStr) : List Goroutine :=
  σ.filterMap (fun d =>
    (gs.find? (fun g => g.scrubbedHash == d)).map
      (fun g => { g with duplicates := groupIds gs d }))

/-- `GoroutineDump.Dedupe` under fingerprint-map iteration order `σ`:
the sequence is replaced by `kept` only when the lengths differ;
either way the in-place `duplicates` updates have happened. -/
def Dedupe (gs : List Goroutine) (σ : List GoStr) : List Goroutine :=
  if gs.length ≠ (keptOf gs σ).length then keptOf gs σ else markFirsts gs gs []

/-! ## Diff

`GoroutineDump.Diff` (`goroutine.go` lines 244-261) works on Go maps
keyed by identity; we model them as association lists in insertion
order, which supports the three operations the source uses (insert or
overwrite, delete, membership).  The claims under study only concern the
key sets and stored records, which are independent of iteration
order. -/

/-- Association-list model of `map[int]*Goroutine`. -/
abbrev GoMap := List (Int × Goroutine)

/-- Key membership. -/
def mapHas (m : GoMap) (k : Int) : Bool := m.any (fun p => p.1 == k)

/-- Insert-or-overwrite. -/
def mapPut (m : GoMap) (k : Int) (v : Goroutine) : GoMap :=
  if mapHas m k then m.map (fun p => if p.1 == k then (k, v) else p)
  else m ++ [(k, v)]

/-- Key deletion. -/
def mapDel (m : GoMap) (k : Int) : GoMap := m.filter (fun p => p.1 ≠ k)

/-- Key list of a map. -/
def mapKeys (m : GoMap) : List Int := m.map (fun p => p.1)

/-- The `lonly` map as first populated from the left dump. -/
def lonlyInit (L : List Goroutine) : GoMap :=
  L.foldl (fun m g => mapPut m g.id g) []

/-- One step of the loop over the right dump: an identity already in
`lonly` moves to `common` (keeping the right dump's record), otherwise
the record goes to `ronly`. -/
def diffStep (acc : GoMap × GoMap × GoMap) (g : Goroutine) : GoMap × GoMap × GoMap :=
  if mapHas acc.1 g.id then
    (mapDel acc.1 g.id, mapPut acc.2.1 g.id g, acc.2.2)
  else (acc.1, acc.2.1, mapPut acc.2.2 g.id g)

/-- `GoroutineDump.Diff`, returning the three maps `(lonly, common,
ronly)` before their materialization into dumps. -/
def Diff (L R : List Goroutine) : GoMap × GoMap × GoMap :=
  R.foldl diffStep (lonlyInit L, [], [])

/-! ## Concrete sample records (used by witnesses and counterexamples) -/

/-- Record returned by a successful `NewGoroutine` (fallback is never
reached for the inputs below). -/
def ngOk (m : GoStr) : Goroutine :=
  match NewGoroutine m with
  | NGRes.ok g => g
  | _ => default

/-- Parse a metadata line, append body lines, freeze. -/
def mkRecord (meta : String) (bodyLines : List String) : Goroutine :=
  Freeze (addLines (ngOk (gostr meta)) (bodyLines.map gostr))

/-- Identity 1, body `work(0x1, 0x2)`. -/
def gA1 : Goroutine := mkRecord "goroutine 1 [running]:" ["work(0x1, 0x2)"]

/-- Identity 2, body `other()` (no scrubbable argument group). -/
def gB : Goroutine := mkRecord "goroutine 2 [idle]:" ["other()"]

/-- Identity 3, body `work(0xabc, 0xdef)` — same scrubbed body as
`gA1`. -/
def gA2 : Goroutine := mkRecord "goroutine 3 [running]:" ["work(0xabc, 0xdef)"]

/-- The shared fingerprint of `gA1` and `gA2`. -/
def hA : GoStr := gA1.scrubbedHash

/-- The fingerprint of `gB`. -/
def hB : GoStr := gB.scrubbedHash

/-! ## Record-level lemmas -/

/-- Concatenated scrubbed body contributed by a list of lines. -/
def scrubAll (ls : List GoStr) : GoStr :=
  ls.flatMap (fun l => scrubLine l ++ [10])

theorem addLines_unfrozen (ls : List GoStr) (g : Goroutine) (h : g.frozen = false) :
    (addLines g ls).frozen = false ∧
    (addLines g ls).bufScrubbed = g.bufScrubbed ++ scrubAll ls := by
  induction ls generalizing g with
  | nil => simp [addLines, scrubAll, h]
  | cons l ls ih =>
    have hstep : addLines g (l :: ls) = addLines (AddLine g l) ls := rfl
    have hadd : AddLine g l =
        { g with
          lines := g.lines + 1
          buf := g.buf ++ l ++ [10]
          bufScrubbed := g.bufScrubbed ++ scrubLine l ++ [10] } := by
      simp [AddLine, h]
    have hfrozen : (AddLine g l).frozen = false := by rw [hadd]; exact h
    obtain ⟨h1, h2⟩ := ih (AddLine g l) hfrozen
    refine ⟨by rw [hstep]; exact h1, ?_⟩
    rw [hstep, h2, hadd]
    simp [scrubAll]

theorem newGoroutine_ok_fields {m : GoStr} {g : Goroutine}
    (h : NewGoroutine m = NGRes.ok g) :
    g.frozen = false ∧ g.bufScrubbed = [] := by
  unfold NewGoroutine at h
  dsimp only at h
  split at h
  · split at h
    · cases h
    · split at h
      · cases h
      · split at h
        · cases h
        · cases h; exact ⟨rfl, rfl⟩
  · cases h

theorem freeze_fields (g : Goroutine) (h : g.frozen = false) :
    (Freeze g).frozen = true
    ∧ (Freeze g).scrubbedHash = hexEncode (g.bufScrubbed ++ md5EmptyDigest)
    ∧ (Freeze g).bufScrubbed = g.bufScrubbed
    ∧ (Freeze g).buf = g.buf
    ∧ (Freeze g).lines = g.lines := by
  simp [Freeze, h]

/-! ## Claim C1 — fingerprint stability -/

/-- Two body lines that are identical except for the content of a
trailing scrubbable argument group: either equal outright, or both
matched by `lineWithArgs` with the same text before the match. -/
def SameUpToArgs (a b : GoStr) : Prop :=
  a = b ∨ ∃ i j, findMatchStart a = some i ∧ findMatchStart b = some j
    ∧ a.take i = b.take j

theorem scrubLine_eq_of_sameUpToArgs {a b : GoStr} (h : SameUpToArgs a b) :
    scrubLine a = scrubLine b := by
  rcases h with h | ⟨i, j, hi, hj, ht⟩
  · rw [h]
  · unfold scrubLine
    rw [hi, hj]
    dsimp only
    rw [ht]

theorem scrubAll_eq {ls₁ ls₂ : List GoStr} (h : List.Forall₂ SameUpToArgs ls₁ ls₂) :
    scrubAll ls₁ = scrubAll ls₂ := by
  induction h with
  | nil => rfl
  | cons hab _ ih =>
    simp only [scrubAll, List.flatMap_cons] at ih ⊢
    rw [scrubLine_eq_of_sameUpToArgs hab, ih]

/-- C1: two finalized records whose body lines are pairwise identical
except for the hexadecimal values in a trailing parenthesized argument
group (each such line scrubbed to the same `(...)` placeholder) have
equal fingerprints. -/
theorem C1_fingerprint_stability (m₁ m₂ : GoStr) (g₁ g₂ : Goroutine)
    (ls₁ ls₂ : List GoStr)
    (h₁ : NewGoroutine m₁ = NGRes.ok g₁) (h₂ : NewGoroutine m₂ = NGRes.ok g₂)
    (hls : List.Forall₂ SameUpToArgs ls₁ ls₂) :
    (Freeze (addLines g₁ ls₁)).scrubbedHash
      = (Freeze (addLines g₂ ls₂)).scrubbedHash := by
  obtain ⟨hf₁, hb₁⟩ := newGoroutine_ok_fields h₁
  obtain ⟨hf₂, hb₂⟩ := newGoroutine_ok_fields h₂
  obtain ⟨ha₁, hs₁⟩ := addLines_unfrozen ls₁ g₁ hf₁
  obtain ⟨ha₂, hs₂⟩ := addLines_unfrozen ls₂ g₂ hf₂
  rw [(freeze_fields _ ha₁).2.1, (freeze_fields _ ha₂).2.1, hs₁, hs₂, hb₁, hb₂,
    scrubAll_eq hls]

/-- Witness for C1 at the spec's concrete scenario: argument groups
`(0x1, 0x2)` versus `(0xabc, 0xdef)` on otherwise identical bodies. -/
theorem C1_fingerprint_stability_witness :
    (Freeze (addLines (ngOk (gostr "goroutine 1 [running]:"))
        [gostr "work(0x1, 0x2)"])).scrubbedHash
      = (Freeze (addLines (ngOk (gostr "goroutine 3 [running]:"))
          [gostr "work(0xabc, 0xdef)"])).scrubbedHash :=
  C1_fingerprint_stability (gostr "goroutine 1 [running]:")
    (gostr "goroutine 3 [running]:")
    (ngOk (gostr "goroutine 1 [running]:")) (ngOk (gostr "goroutine 3 [running]:"))
    [gostr "work(0x1, 0x2)"] [gostr "work(0xabc, 0xdef)"]
    (by decide) (by decide)
    (List.Forall₂.cons (Or.inr ⟨4, 4, by decide, by decide, by decide⟩)
      List.Forall₂.nil)

/-! ## Claim C8 — append after finalize, idempotent finalize -/

theorem addLine_of_frozen (g : Goroutine) (l : GoStr) (h : g.frozen = true) :
    AddLine g l = g := by
  simp [AddLine, h]

theorem freeze_of_frozen (g : Goroutine) (h : g.frozen = true) : Freeze g = g := by
  simp [Freeze, h]

/-- Unfrozen record with one scrubbable body line, for witnesses. -/
def gUnf : Goroutine :=
  addLines (ngOk (gostr "goroutine 1 [running]:")) [gostr "work(0x1, 0x2)"]

/-- Unfrozen record with one non-scrubbable body line, for witnesses. -/
def gUnf2 : Goroutine :=
  addLines (ngOk (gostr "goroutine 2 [idle]:")) [gostr "other()"]

/-- C8: appending a body line to a finalized record changes nothing and
raises no error; finalization is idempotent, and the first call sets the
flag and caches the fingerprint while leaving the other fields
unchanged. -/
theorem C8_finalize_frame (g : Goroutine) (l : GoStr) (h : g.frozen = false) :
    AddLine (Freeze g) l = Freeze g
    ∧ Freeze (Freeze g) = Freeze g
    ∧ (Freeze g).frozen = true
    ∧ (Freeze g).scrubbedHash = hexEncode (g.bufScrubbed ++ md5EmptyDigest)
    ∧ (Freeze g).lines = g.lines
    ∧ (Freeze g).buf = g.buf
    ∧ (Freeze g).bufScrubbed = g.bufScrubbed := by
  obtain ⟨h1, h2, h3, h4, h5⟩ := freeze_fields g h
  exact ⟨addLine_of_frozen _ _ h1, freeze_of_frozen _ h1, h1, h2, h5, h4, h3⟩

/-- Witness for C8 at a concrete unfrozen record. -/
theorem C8_finalize_frame_witness :
    AddLine (Freeze gUnf) (gostr "late(0x9)") = Freeze gUnf
    ∧ Freeze (Freeze gUnf) = Freeze gUnf
    ∧ (Freeze gUnf).frozen = true
    ∧ (Freeze gUnf).scrubbedHash = hexEncode (gUnf.bufScrubbed ++ md5EmptyDigest)
    ∧ (Freeze gUnf).lines = gUnf.lines
    ∧ (Freeze gUnf).buf = gUnf.buf
    ∧ (Freeze gUnf).bufScrubbed = gUnf.bufScrubbed :=
  C8_finalize_frame gUnf (gostr "late(0x9)") (by decide)

/-! ## Claim C9 — the fingerprint is the hex-encoded body -/

theorem hexDigitByte_inj {m n : Nat} (hm : m < 16) (hn : n < 16)
    (h : hexDigitByte m = hexDigitByte n) : m = n := by
  unfold hexDigitByte at h
  split at h <;> split at h <;> omega

theorem hexEncode_cons (x : Nat) (a : GoStr) :
    hexEncode (x :: a)
      = hexDigitByte (x / 16) :: hexDigitByte (x % 16) :: hexEncode a := by
  simp [hexEncode]

theorem hexEncode_length (a : GoStr) : (hexEncode a).length = 2 * a.length := by
  induction a with
  | nil => rfl
  | cons x a ih =>
    rw [hexEncode_cons]
    simp only [List.length_cons, ih]
    omega

theorem hexEncode_inj {a : GoStr} : ∀ {b : GoStr}, (∀ x ∈ a, x < 256) →
    (∀ x ∈ b, x < 256) → hexEncode a = hexEncode b → a = b := by
  induction a with
  | nil =>
    intro b _ _ h
    cases b with
    | nil => rfl
    | cons y b => rw [hexEncode_cons] at h; cases h
  | cons x a ih =>
    intro b ha hb h
    cases b with
    | nil => rw [hexEncode_cons] at h; cases h
    | cons y b =>
      rw [hexEncode_cons, hexEncode_cons] at h
      have hx : x < 256 := ha x (by simp)
      have hy : y < 256 := hb y (by simp)
      injection h with e1 h
      injection h with e2 e3
      have d1 : x / 16 = y / 16 :=
        hexDigitByte_inj (by omega) (by omega) e1
      have d2 : x % 16 = y % 16 :=
        hexDigitByte_inj (by omega) (by omega) e2
      have hxy : x = y := by omega
      have : a = b :=
        ih (fun z hz => ha z (by simp [hz])) (fun z hz => hb z (by simp [hz])) e3
      rw [hxy, this]

theorem bytes_append {u v : GoStr} (hu : ∀ x ∈ u, x < 256)
    (hv : ∀ x ∈ v, x < 256) : ∀ x ∈ u ++ v, x < 256 := by
  intro x hx
  rcases List.mem_append.mp hx with h | h
  · exact hu x h
  · exact hv x h

/-- C9: the fingerprint computed at finalization is the hex encoding of
the scrubbed body followed by the MD5 digest of the empty input (the
hasher was never fed the body, see `md5EmptyDigest`); consequently two
finalized records agree on their fingerprints exactly when their
scrubbed bodies agree byte for byte, and the fingerprint length is
`2 * (bodyLength + 16)` — it grows with the body instead of being a
fixed-size digest. -/
theorem C9_fingerprint_is_hex_body (g₁ g₂ : Goroutine)
    (h₁ : g₁.frozen = false) (h₂ : g₂.frozen = false)
    (w₁ : ∀ b ∈ g₁.bufScrubbed, b < 256) (w₂ : ∀ b ∈ g₂.bufScrubbed, b < 256) :
    (Freeze g₁).scrubbedHash = hexEncode (g₁.bufScrubbed ++ md5EmptyDigest)
    ∧ ((Freeze g₁).scrubbedHash = (Freeze g₂).scrubbedHash
        ↔ g₁.bufScrubbed = g₂.bufScrubbed)
    ∧ (Freeze g₁).scrubbedHash.length = 2 * (g₁.bufScrubbed.length + 16) := by
  have e₁ := (freeze_fields g₁ h₁).2.1
  have e₂ := (freeze_fields g₂ h₂).2.1
  have wmd : ∀ x ∈ md5EmptyDigest, x < 256 := by decide
  refine ⟨e₁, ⟨?_, ?_⟩, ?_⟩
  · intro h
    rw [e₁, e₂] at h
    exact List.append_cancel_right
      (hexEncode_inj (bytes_append w₁ wmd) (bytes_append w₂ wmd) h)
  · intro h
    rw [e₁, e₂, h]
  · rw [e₁, hexEncode_length]
    simp [md5EmptyDigest]

/-- Witness for C9 at two concrete unfrozen records with different
bodies. -/
theorem C9_fingerprint_is_hex_body_witness :
    (Freeze gUnf).scrubbedHash = hexEncode (gUnf.bufScrubbed ++ md5EmptyDigest)
    ∧ ((Freeze gUnf).scrubbedHash = (Freeze gUnf2).scrubbedHash
        ↔ gUnf.bufScrubbed = gUnf2.bufScrubbed)
    ∧ (Freeze gUnf).scrubbedHash.length = 2 * (gUnf.bufScrubbed.length + 16) :=
  C9_fingerprint_is_hex_body gUnf gUnf2 (by decide) (by decide)
    (by decide) (by decide)

/-! ## Claim C7 — parser totality -/

/-- Counterexample to C7 as stated: on the empty metadata line the
constructor neither returns a record nor an error — the Go code panics
with a slice bound violation in `metaline[idx+1 : len(metaline)-2]`
(and would also panic in `metaline[9:idx]`). -/
theorem C7_counterexample : NewGoroutine [] = NGRes.panics := by decide

/-- C7 amended: provided the metadata line contains a bracket whose
first occurrence `i` satisfies `9 ≤ i` and `i + 3 ≤ length` (so that
both string slices taken by the source are in range), the constructor
totally returns either a record or an error, and it errors exactly when
`strconv.Atoi` fails on the trimmed identity slice `metaline[9:i]`. -/
theorem C7_parse_total_amended (m : GoStr) (i : Nat)
    (hidx : indexOfByte m 91 = some i) (h9 : 9 ≤ i) (hlen : i + 3 ≤ m.length) :
    NewGoroutine m ≠ NGRes.panics
    ∧ (NewGoroutine m = NGRes.fails
        ↔ Atoi (trimSpace ((m.take i).drop 9)) = none) := by
  have hc : 2 ≤ m.length ∧ i + 1 + 2 ≤ m.length := by omega
  have h9' : ¬ i < 9 := by omega
  unfold NewGoroutine
  rw [hidx]
  dsimp only
  rw [if_pos hc, if_neg h9']
  cases hA : Atoi (trimSpace ((m.take i).drop 9)) with
  | none => simp
  | some v => simp

/-- Witness for the amended C7 at a well-formed metadata line (bracket
at index 12). -/
theorem C7_parse_total_amended_witness :
    NewGoroutine (gostr "goroutine 1 [running]:") ≠ NGRes.panics
    ∧ (NewGoroutine (gostr "goroutine 1 [running]:") = NGRes.fails
        ↔ Atoi (trimSpace (((gostr "goroutine 1 [running]:").take 12).drop 9))
            = none) :=
  C7_parse_total_amended (gostr "goroutine 1 [running]:") 12
    (by decide) (by decide) (by decide)

/-! ## Claim C3 — expression errors abort without mutation -/

def EvalResult.isErr : EvalResult → Bool
  | EvalResult.err _ => true
  | _ => false

def EvalResult.isPanic : EvalResult → Bool
  | EvalResult.panics => true
  | _ => false

theorem runCond_err {f : Evaluator} :
    ∀ {gs : List Goroutine}, (∀ g ∈ gs, (f (mkParams g)).isPanic = false) →
    (∃ g ∈ gs, (f (mkParams g)).isErr = true) →
    ∃ e, ∀ cb i, runCond f cb i gs = CallRes.err e := by
  intro gs
  induction gs with
  | nil =>
    intro _ h
    rcases h with ⟨g, hg, _⟩
    cases hg
  | cons g rest ih =>
    intro hnp he
    cases hf : f (mkParams g) with
    | panics =>
      have hc := hnp g (by simp)
      rw [hf] at hc
      simp [EvalResult.isPanic] at hc
    | err e =>
      exact ⟨e, fun cb i => by simp [runCond, hf]⟩
    | ok v =>
      cases v with
      | boolean b =>
        have he' : ∃ g' ∈ rest, (f (mkParams g')).isErr = true := by
          rcases he with ⟨g', hg', herr⟩
          rcases List.mem_cons.mp hg' with rfl | hmem
          · rw [hf] at herr
            simp [EvalResult.isErr] at herr
          · exact ⟨g', hmem, herr⟩
        obtain ⟨e, hrec⟩ := ih (fun g' h' => hnp g' (List.mem_cons_of_mem _ h')) he'
        exact ⟨e, fun cb i => by simp [runCond, hf, hrec cb (i + 1)]⟩
      | num n =>
        exact ⟨"argument expression should return a boolean",
          fun cb i => by simp [runCond, hf]⟩
      | str s =>
        exact ⟨"argument expression should return a boolean",
          fun cb i => by simp [runCond, hf]⟩

/-- C3: when compiling the condition fails, or evaluating it on some
record of the collection returns an error (and no earlier record's
evaluation panics), `Delete` and `Keep` return that error and leave the
record sequence exactly as it was. -/
theorem C3_error_no_mutation (compiled : Except GoErr Evaluator) (gs : List Goroutine) :
    (∀ e, compiled = Except.error e →
      Delete compiled gs = (CallRes.err e, gs)
        ∧ Keep compiled gs = (CallRes.err e, gs))
    ∧ (∀ f, compiled = Except.ok f →
        (∀ g ∈ gs, (f (mkParams g)).isPanic = false) →
        (∃ g ∈ gs, (f (mkParams g)).isErr = true) →
        ∃ e, Delete compiled gs = (CallRes.err e, gs)
          ∧ Keep compiled gs = (CallRes.err e, gs)) := by
  constructor
  · rintro e rfl
    constructor <;> simp [Delete, Keep, withCondition]
  · rintro f rfl hnp he
    obtain ⟨e, hrec⟩ := runCond_err hnp he
    exact ⟨e, by simp [Delete, withCondition, hrec], by simp [Keep, withCondition, hrec]⟩

/-- Evaluator of the expression `contains(trace)` — the spec's arity
scenario: `contains` called with one argument. -/
def fArity : Evaluator := fun p => liftFn (containsFn [Value.str p.trace])

/-- Witness for C3: the one-argument `contains` call yields the arity
error and the collection survives untouched. -/
theorem C3_error_no_mutation_witness :
    ∃ e, Delete (Except.ok fArity) [gA1] = (CallRes.err e, [gA1])
      ∧ Keep (Except.ok fArity) [gA1] = (CallRes.err e, [gA1]) :=
  (C3_error_no_mutation (Except.ok fArity) [gA1]).2 fArity rfl (by decide)
    ⟨gA1, by decide, by decide⟩

/-! ## Claim C6 — Keep and Delete are complementary filters -/

theorem runCond_keep {f : Evaluator} {p : Goroutine → Bool} :
    ∀ {gs : List Goroutine},
    (∀ g ∈ gs, f (mkParams g) = EvalResult.ok (Value.boolean (p g))) →
    ∀ i, runCond f (fun _ g passed => if passed then some g else none) i gs
      = CallRes.ok (gs.filter p) := by
  intro gs
  induction gs with
  | nil => intro _ i; rfl
  | cons g rest ih =>
    intro hf i
    have hg := hf g (by simp)
    have hrest := ih (fun g' h' => hf g' (by simp [h'])) (i + 1)
    simp only [runCond, hg, hrest]
    cases hp : p g <;> simp [List.filter_cons, hp]

theorem runCond_delete {f : Evaluator} {p : Goroutine → Bool} :
    ∀ {gs : List Goroutine},
    (∀ g ∈ gs, f (mkParams g) = EvalResult.ok (Value.boolean (p g))) →
    ∀ i, runCond f (fun _ g passed => if passed then none else some g) i gs
      = CallRes.ok (gs.filter (fun g => !p g)) := by
  intro gs
  induction gs with
  | nil => intro _ i; rfl
  | cons g rest ih =>
    intro hf i
    have hg := hf g (by simp)
    have hrest := ih (fun g' h' => hf g' (by simp [h'])) (i + 1)
    simp only [runCond, hg, hrest]
    cases hp : p g <;> simp [List.filter_cons, hp]

/-- C6: for a predicate that evaluates to a boolean on every record of a
collection with distinct identities, `Keep` retains the matching records
and `Delete` the non-matching ones; the two identity lists are disjoint
and together a permutation of the original identity list, and `Delete`
applied after `Keep` empties the collection. -/
theorem C6_filter_complementarity (f : Evaluator) (gs : List Goroutine)
    (p : Goroutine → Bool)
    (hids : (gs.map (fun g => g.id)).Nodup)
    (hf : ∀ g ∈ gs, f (mkParams g) = EvalResult.ok (Value.boolean (p g))) :
    Keep (Except.ok f) gs = (CallRes.ok (), gs.filter p)
    ∧ Delete (Except.ok f) gs = (CallRes.ok (), gs.filter (fun g => !p g))
    ∧ ((gs.filter p).map (fun g => g.id)
        ++ (gs.filter (fun g => !p g)).map (fun g => g.id)).Perm
        (gs.map (fun g => g.id))
    ∧ (∀ k, k ∈ (gs.filter p).map (fun g => g.id)
        → k ∉ (gs.filter (fun g => !p g)).map (fun g => g.id))
    ∧ Delete (Except.ok f) (gs.filter p) = (CallRes.ok (), []) := by
  refine ⟨?_, ?_, ?_, ?_, ?_⟩
  · simp [Keep, withCondition, runCond_keep hf 0]
  · simp [Delete, withCondition, runCond_delete hf 0]
  · have hperm := (List.filter_append_perm p gs).map (fun g => g.id)
    rw [List.map_append] at hperm
    exact hperm
  · intro k hk hk'
    obtain ⟨g₁, hg₁, rfl⟩ := List.mem_map.mp hk
    obtain ⟨g₂, hg₂, hid⟩ := List.mem_map.mp hk'
    obtain ⟨hg₁m, hp₁⟩ := List.mem_filter.mp hg₁
    obtain ⟨hg₂m, hp₂⟩ := List.mem_filter.mp hg₂
    have hgg : g₂ = g₁ := List.inj_on_of_nodup_map hids hg₂m hg₁m hid
    rw [hgg] at hp₂
    simp [hp₁] at hp₂
  · have hf' : ∀ g ∈ gs.filter p, f (mkParams g) = EvalResult.ok (Value.boolean (p g)) :=
      fun g h => hf g (List.mem_filter.mp h).1
    have h0 : (gs.filter p).filter (fun g => !p g) = [] := by
      refine List.filter_eq_nil_iff.mpr ?_
      intro g hg
      simp [(List.mem_filter.mp hg).2]
    simp [Delete, withCondition, runCond_delete hf' 0, h0]

/-- Evaluator of a predicate selecting identity 1 (for the witness). -/
def fSelect : Evaluator := fun prm => EvalResult.ok (Value.boolean (prm.id == 1))

/-- Boolean predicate mirrored by `fSelect` on records. -/
def pSelect : Goroutine → Bool := fun g => g.id == 1

/-- Witness for C6 on a concrete two-record collection. -/
theorem C6_filter_complementarity_witness :
    Keep (Except.ok fSelect) [gA1, gB] = (CallRes.ok (), [gA1, gB].filter pSelect)
    ∧ Delete (Except.ok fSelect) [gA1, gB]
        = (CallRes.ok (), [gA1, gB].filter (fun g => !pSelect g))
    ∧ (([gA1, gB].filter pSelect).map (fun g => g.id)
        ++ ([gA1, gB].filter (fun g => !pSelect g)).map (fun g => g.id)).Perm
        ([gA1, gB].map (fun g => g.id))
    ∧ (∀ k, k ∈ ([gA1, gB].filter pSelect).map (fun g => g.id)
        → k ∉ ([gA1, gB].filter (fun g => !pSelect g)).map (fun g => g.id))
    ∧ Delete (Except.ok fSelect) ([gA1, gB].filter pSelect) = (CallRes.ok (), []) :=
  C6_filter_complementarity fSelect [gA1, gB] pSelect (by decide) (by decide)

/-! ## Claim C10 — non-string arguments panic instead of erroring -/

def Value.isStr : Value → Bool
  | Value.str _ => true
  | _ => false

/-- Evaluator of the expression `contains(id, lines)`: both arguments
reach the function as numbers, not strings. -/
def fIdLines : Evaluator :=
  fun p => liftFn (containsFn [Value.num p.id, Value.num p.lines])

/-- C10: calling `contains` (or `lower`, `upper`) with the correct
number of arguments but a non-string value does not produce an error
return — the unchecked `.(string)` assertion panics — and the panic
propagates so that the enclosing `Delete`, `Keep`, `Copy` or `Search`
call crashes instead of reporting an evaluation error. -/
theorem C10_nonstring_args_panic :
    (∀ v w : Value, (v.isStr = false ∨ w.isStr = false)
      → containsFn [v, w] = FnRes.panics)
    ∧ (∀ v : Value, v.isStr = false → lowerFn [v] = FnRes.panics)
    ∧ (∀ v : Value, v.isStr = false → upperFn [v] = FnRes.panics)
    ∧ (∀ gs : List Goroutine, gs ≠ [] →
        Delete (Except.ok fIdLines) gs = (CallRes.panics, gs)
        ∧ Keep (Except.ok fIdLines) gs = (CallRes.panics, gs)
        ∧ CopyCond (Except.ok fIdLines) gs = CallRes.panics
        ∧ SearchCond (Except.ok fIdLines) gs = CallRes.panics) := by
  refine ⟨?_, ?_, ?_, ?_⟩
  · intro v w h
    cases v <;> cases w <;>
      first
        | rfl
        | simp [Value.isStr] at h
  · intro v h
    cases v <;> first | rfl | simp [Value.isStr] at h
  · intro v h
    cases v <;> first | rfl | simp [Value.isStr] at h
  · intro gs hne
    cases gs with
    | nil => exact absurd rfl hne
    | cons g rest =>
      have hrun : ∀ cb i, runCond fIdLines cb i (g :: rest) = CallRes.panics := by
        intro cb i
        simp [runCond, fIdLines, containsFn, liftFn]
      exact ⟨by simp [Delete, withCondition, hrun],
        by simp [Keep, withCondition, hrun],
        by simp [CopyCond, withCondition, hrun],
        by simp [SearchCond, withCondition, hrun]⟩

/-- Witness for C10 at concrete values and a concrete one-record
collection. -/
theorem C10_nonstring_args_panic_witness :
    containsFn [Value.num 3, Value.str []] = FnRes.panics
    ∧ lowerFn [Value.num 3] = FnRes.panics
    ∧ Delete (Except.ok fIdLines) [gA1] = (CallRes.panics, [gA1])
    ∧ Keep (Except.ok fIdLines) [gA1] = (CallRes.panics, [gA1])
    ∧ CopyCond (Except.ok fIdLines) [gA1] = CallRes.panics
    ∧ SearchCond (Except.ok fIdLines) [gA1] = CallRes.panics :=
  ⟨C10_nonstring_args_panic.1 (Value.num 3) (Value.str []) (Or.inl rfl),
    C10_nonstring_args_panic.2.1 (Value.num 3) rfl,
    (C10_nonstring_args_panic.2.2.2 [gA1] (by simp)).1,
    (C10_nonstring_args_panic.2.2.2 [gA1] (by simp)).2.1,
    (C10_nonstring_args_panic.2.2.2 [gA1] (by simp)).2.2.1,
    (C10_nonstring_args_panic.2.2.2 [gA1] (by simp)).2.2.2⟩

/-! ## Dedupe lemmas (shared by claims C2 and C5) -/

theorem keptOf_map_hash {gs : List Goroutine} :
    ∀ {σ : List GoStr}, (∀ d ∈ σ, d ∈ gs.map (fun g => g.scrubbedHash)) →
    (keptOf gs σ).map (fun g => g.scrubbedHash) = σ := by
  intro σ
  induction σ with
  | nil => intro _; rfl
  | cons d σ ih =>
    intro hσ
    have hd : d ∈ gs.map (fun g => g.scrubbedHash) := hσ d (by simp)
    obtain ⟨g0, hg0m, hg0h⟩ := List.mem_map.mp hd
    cases hfind : gs.find? (fun g => g.scrubbedHash == d) with
    | none =>
      rw [List.find?_eq_none] at hfind
      exact absurd (by simp [hg0h]) (hfind g0 hg0m)
    | some g1 =>
      have hh : g1.scrubbedHash = d := by
        have hp := List.find?_some hfind
        simpa using hp
      have ihh := ih (fun d' h' => hσ d' (by simp [h']))
      simp [keptOf, List.filterMap_cons, hfind, hh]
      simpa [keptOf] using ihh

theorem keptOf_length {gs : List Goroutine} {σ : List GoStr}
    (h : ∀ d ∈ σ, d ∈ gs.map (fun g => g.scrubbedHash)) :
    (keptOf gs σ).length = σ.length := by
  have := congrArg List.length (keptOf_map_hash h)
  simpa using this

theorem hashes_nodup_of_length {gs : List Goroutine} {σ : List GoStr}
    (h : KeyOrder gs σ) (hl : gs.length = (keptOf gs σ).length) :
    (gs.map (fun g => g.scrubbedHash)).Nodup := by
  obtain ⟨hnd, hsub, hsup⟩ := h
  have hsp : σ.Subperm (gs.map (fun g => g.scrubbedHash)) := hnd.subperm hsub
  have hlen : gs.length = σ.length := by rw [hl, keptOf_length hsub]
  have hle : (gs.map (fun g => g.scrubbedHash)).length ≤ σ.length := by
    simp [hlen.symm]
  have hperm : σ.Perm (gs.map (fun g => g.scrubbedHash)) :=
    hsp.perm_of_length_le hle
  exact hperm.nodup_iff.mp hnd

theorem markFirsts_eq_map {full : List Goroutine} :
    ∀ {l : List Goroutine} {seen : List GoStr},
    ((l.map (fun g => g.scrubbedHash)).Nodup) →
    (∀ g ∈ l, g.scrubbedHash ∉ seen) →
    markFirsts full l seen
      = l.map (fun g => { g with duplicates := groupIds full g.scrubbedHash }) := by
  intro l
  induction l with
  | nil => intro seen _ _; rfl
  | cons g rest ih =>
    intro seen hnd hseen
    rw [List.map_cons, List.nodup_cons] at hnd
    have h1 : g.scrubbedHash ∉ seen := hseen g (by simp)
    simp only [markFirsts, if_neg h1, List.map_cons]
    congr 1
    refine ih hnd.2 ?_
    intro g' h' hc
    rcases List.mem_cons.mp hc with he | he
    · exact hnd.1 (he ▸ List.mem_map_of_mem (fun g => g.scrubbedHash) h')
    · exact hseen g' (List.mem_cons_of_mem _ h') he

theorem find?_self_of_nodup :
    ∀ {gs : List Goroutine}, ((gs.map (fun g => g.scrubbedHash)).Nodup) →
    ∀ {g : Goroutine}, g ∈ gs →
    gs.find? (fun x => x.scrubbedHash == g.scrubbedHash) = some g := by
  intro gs
  induction gs with
  | nil => intro _ g hg; cases hg
  | cons a rest ih =>
    intro hnd g hg
    rw [List.map_cons, List.nodup_cons] at hnd
    rcases List.mem_cons.mp hg with rfl | hmem
    · exact List.find?_cons_of_pos _ (by simp)
    · have hne0 : a.scrubbedHash ≠ g.scrubbedHash := by
        intro he
        exact hnd.1 (he ▸ List.mem_map_of_mem (fun g => g.scrubbedHash) hmem)
      have hne : (a.scrubbedHash == g.scrubbedHash) = false := by simp [hne0]
      simp only [List.find?, hne, cond_false]
      exact ih hnd.2 hmem

theorem groupIds_of_nodup :
    ∀ {gs : List Goroutine}, ((gs.map (fun g => g.scrubbedHash)).Nodup) →
    ∀ {g : Goroutine}, g ∈ gs → groupIds gs g.scrubbedHash = [g.id] := by
  intro gs
  induction gs with
  | nil => intro _ g hg; cases hg
  | cons a rest ih =>
    intro hnd g hg
    rw [List.map_cons, List.nodup_cons] at hnd
    rcases List.mem_cons.mp hg with rfl | hmem
    · have hrest : rest.filter (fun x => x.scrubbedHash == g.scrubbedHash) = [] := by
        refine List.filter_eq_nil_iff.mpr ?_
        intro x hx
        simp only [beq_iff_eq]
        intro he
        exact hnd.1 (he ▸ List.mem_map_of_mem (fun g => g.scrubbedHash) hx)
      simp [groupIds, List.filter_cons, hrest]
    · have hne0 : a.scrubbedHash ≠ g.scrubbedHash := by
        intro he
        exact hnd.1 (he ▸ List.mem_map_of_mem (fun g => g.scrubbedHash) hmem)
      have hne : (a.scrubbedHash == g.scrubbedHash) = false := by simp [hne0]
      rw [groupIds, List.filter_cons, hne]
      simpa [groupIds] using ih hnd.2 hmem

/-- Behaviour of `Dedupe` under any admissible fingerprint iteration
order: the result has exactly one record per distinct fingerprint, each
being the collection's first record with that fingerprint, its
`duplicates` field set to the group's identity list; the result's
fingerprint order is `σ` when the sequence was replaced, and the
original order otherwise. -/
theorem dedupe_members {gs : List Goroutine} {σ : List GoStr} (h : KeyOrder gs σ) :
    ((Dedupe gs σ).map (fun g => g.scrubbedHash)).Nodup
    ∧ (∀ d, d ∈ (Dedupe gs σ).map (fun g => g.scrubbedHash)
        ↔ d ∈ gs.map (fun g => g.scrubbedHash))
    ∧ (∀ g ∈ Dedupe gs σ,
        ∃ g₀, gs.find? (fun x => x.scrubbedHash == g.scrubbedHash) = some g₀
          ∧ g = { g₀ with duplicates := groupIds gs g₀.scrubbedHash })
    ∧ ((Dedupe gs σ).map (fun g => g.scrubbedHash) = σ
        ∨ (Dedupe gs σ).map (fun g => g.scrubbedHash) = gs.map (fun g => g.scrubbedHash)) := by
  obtain ⟨hnd, hsub, hsup⟩ := h
  by_cases hL : gs.length ≠ (keptOf gs σ).length
  · have hD : Dedupe gs σ = keptOf gs σ := by rw [Dedupe, if_pos hL]
    have hmap : (keptOf gs σ).map (fun g => g.scrubbedHash) = σ := keptOf_map_hash hsub
    rw [hD, hmap]
    refine ⟨hnd, fun d => ⟨fun hd => hsub d hd, fun hd => hsup d hd⟩, ?_, Or.inl rfl⟩
    intro g hg
    simp only [keptOf] at hg
    obtain ⟨d, hdσ, hfd⟩ := List.mem_filterMap.mp hg
    cases hfind : gs.find? (fun x => x.scrubbedHash == d) with
    | none => rw [hfind] at hfd; cases hfd
    | some g₀ =>
      rw [hfind] at hfd
      have hfd' : { g₀ with duplicates := groupIds gs d } = g := by simpa using hfd
      have hg₀d : g₀.scrubbedHash = d := by simpa using List.find?_some hfind
      have hgh : g.scrubbedHash = d := by rw [← hfd']; exact hg₀d
      refine ⟨g₀, ?_, ?_⟩
      · rw [hgh]; exact hfind
      · rw [← hg₀d] at hfd'
        exact hfd'.symm
  · push_neg at hL
    have hndh : (gs.map (fun g => g.scrubbedHash)).Nodup :=
      hashes_nodup_of_length ⟨hnd, hsub, hsup⟩ hL
    have hD : Dedupe gs σ = markFirsts gs gs [] := by
      rw [Dedupe, if_neg (fun hc => hc hL)]
    have hmf : markFirsts gs gs []
        = gs.map (fun g => { g with duplicates := groupIds gs g.scrubbedHash }) :=
      markFirsts_eq_map hndh (fun g _ => List.not_mem_nil _)
    have hmaph : (markFirsts gs gs []).map (fun g => g.scrubbedHash)
        = gs.map (fun g => g.scrubbedHash) := by
      rw [hmf, List.map_map]
      rfl
    rw [hD, hmaph]
    refine ⟨hndh, fun d => Iff.rfl, ?_, Or.inr rfl⟩
    intro g hg
    rw [hmf] at hg
    obtain ⟨g₀, hg₀, rfl⟩ := List.mem_map.mp hg
    exact ⟨g₀, find?_self_of_nodup hndh hg₀, rfl⟩

/-! ## Claim C2 — Dedupe representatives -/

/-- Counterexample to the order part of C2: with fingerprint groups
{gA1, gA2} and {gB} and map iteration order `[hB, hA]`, the kept
representatives come out as identities `[2, 1]`, not in their original
relative order `[1, 2]` — the output order is the map iteration order,
which Go leaves unspecified. -/
theorem C2_counterexample :
    KeyOrder [gA1, gB, gA2] [hB, hA]
    ∧ [gA1, gB, gA2].map (fun g => g.id) = [1, 2, 3]
    ∧ (Dedupe [gA1, gB, gA2] [hB, hA]).map (fun g => g.id) = [2, 1] :=
  ⟨⟨by decide, by decide, by decide⟩, by decide, by decide⟩

/-- C2 amended: under any admissible fingerprint-map iteration order,
Dedupe keeps exactly one representative per fingerprint group, namely
the group's first-seen member in collection order (with `duplicates`
set to the group's identity list); the representatives appear in the
map iteration order when the sequence is replaced (or in original order
when every fingerprint was already unique), not necessarily in their
original relative order. -/
theorem C2_dedupe_amended (gs : List Goroutine) (σ : List GoStr) (h : KeyOrder gs σ) :
    ((Dedupe gs σ).map (fun g => g.scrubbedHash)).Nodup
    ∧ (∀ d, d ∈ (Dedupe gs σ).map (fun g => g.scrubbedHash)
        ↔ d ∈ gs.map (fun g => g.scrubbedHash))
    ∧ (∀ g ∈ Dedupe gs σ,
        ∃ g₀, gs.find? (fun x => x.scrubbedHash == g.scrubbedHash) = some g₀
          ∧ g = { g₀ with duplicates := groupIds gs g₀.scrubbedHash })
    ∧ ((Dedupe gs σ).map (fun g => g.scrubbedHash) = σ
        ∨ (Dedupe gs σ).map (fun g => g.scrubbedHash)
            = gs.map (fun g => g.scrubbedHash)) :=
  dedupe_members h

/-- Witness for the amended C2 at a concrete three-record collection
with two fingerprint groups. -/
theorem C2_dedupe_amended_witness :
    ((Dedupe [gA1, gB, gA2] [hB, hA]).map (fun g => g.scrubbedHash)).Nodup
    ∧ (∀ d, d ∈ (Dedupe [gA1, gB, gA2] [hB, hA]).map (fun g => g.scrubbedHash)
        ↔ d ∈ [gA1, gB, gA2].map (fun g => g.scrubbedHash))
    ∧ (∀ g ∈ Dedupe [gA1, gB, gA2] [hB, hA],
        ∃ g₀, [gA1, gB, gA2].find? (fun x => x.scrubbedHash == g.scrubbedHash)
            = some g₀
          ∧ g = { g₀ with duplicates := groupIds [gA1, gB, gA2] g₀.scrubbedHash })
    ∧ ((Dedupe [gA1, gB, gA2] [hB, hA]).map (fun g => g.scrubbedHash) = [hB, hA]
        ∨ (Dedupe [gA1, gB, gA2] [hB, hA]).map (fun g => g.scrubbedHash)
            = [gA1, gB, gA2].map (fun g => g.scrubbedHash)) :=
  C2_dedupe_amended [gA1, gB, gA2] [hB, hA] ⟨by decide, by decide, by decide⟩

/-! ## Claim C5 — Dedupe twice -/

/-- Counterexample to C5 as stated: after deduplicating two records
sharing a fingerprint, a second Dedupe keeps the same single-record
sequence but overwrites its `duplicates` from `[1, 3]` to `[1]` — the
second run's groups are all singletons and the in-place update happens
even though the sequence is not replaced. -/
theorem C5_counterexample :
    KeyOrder [gA1, gA2] [hA]
    ∧ KeyOrder (Dedupe [gA1, gA2] [hA]) [hA]
    ∧ (Dedupe [gA1, gA2] [hA]).map (fun g => g.duplicates) = [[1, 3]]
    ∧ (Dedupe (Dedupe [gA1, gA2] [hA]) [hA]).map (fun g => g.duplicates) = [[1]]
    ∧ Dedupe (Dedupe [gA1, gA2] [hA]) [hA] ≠ Dedupe [gA1, gA2] [hA] :=
  ⟨⟨by decide, by decide, by decide⟩, ⟨by decide, by decide, by decide⟩,
    by decide, by decide, by decide⟩

/-- C5 amended: a second Dedupe (under any admissible iteration orders)
returns the same record sequence in the same order, except that every
kept record's `duplicates` list is reset to the singleton of its own
identity. -/
theorem C5_dedupe_twice_amended (gs : List Goroutine) (σ₁ σ₂ : List GoStr)
    (h₁ : KeyOrder gs σ₁) (h₂ : KeyOrder (Dedupe gs σ₁) σ₂) :
    Dedupe (Dedupe gs σ₁) σ₂
      = (Dedupe gs σ₁).map (fun g => { g with duplicates := [g.id] }) := by
  have hndres : ((Dedupe gs σ₁).map (fun g => g.scrubbedHash)).Nodup :=
    (dedupe_members h₁).1
  obtain ⟨hnd₂, hsub₂, hsup₂⟩ := h₂
  have hlen2 : (Dedupe gs σ₁).length = (keptOf (Dedupe gs σ₁) σ₂).length := by
    rw [keptOf_length hsub₂]
    have hs1 := (hnd₂.subperm hsub₂).length_le
    have hs2 := (hndres.subperm hsup₂).length_le
    rw [List.length_map] at hs1 hs2
    omega
  rw [Dedupe, if_neg (fun hc => hc hlen2),
    markFirsts_eq_map hndres (fun g _ => List.not_mem_nil _)]
  refine List.map_congr_left ?_
  intro g hg
  rw [groupIds_of_nodup hndres hg]

/-- Witness for the amended C5 at the concrete duplicated collection. -/
theorem C5_dedupe_twice_amended_witness :
    Dedupe (Dedupe [gA1, gA2] [hA]) [hA]
      = (Dedupe [gA1, gA2] [hA]).map (fun g => { g with duplicates := [g.id] }) :=
  C5_dedupe_twice_amended [gA1, gA2] [hA] [hA]
    ⟨by decide, by decide, by decide⟩ ⟨by decide, by decide, by decide⟩

/-! ## Map lemmas for the Diff engine -/

theorem mapHas_iff (m : GoMap) (k : Int) : mapHas m k = true ↔ k ∈ mapKeys m := by
  constructor
  · intro h
    obtain ⟨p, hp, he⟩ := List.any_eq_true.mp h
    exact List.mem_map.mpr ⟨p, hp, by simpa using he⟩
  · intro h
    obtain ⟨p, hp, he⟩ := List.mem_map.mp h
    exact List.any_eq_true.mpr ⟨p, hp, by simpa using he⟩

theorem mapKeys_mapPut (m : GoMap) (k : Int) (v : Goroutine) (x : Int) :
    x ∈ mapKeys (mapPut m k v) ↔ x = k ∨ x ∈ mapKeys m := by
  unfold mapPut
  split
  · next hhas =>
    have hkeys : mapKeys (m.map (fun p => if p.1 == k then (k, v) else p))
        = mapKeys m := by
      unfold mapKeys
      rw [List.map_map]
      refine List.map_congr_left ?_
      intro p hp
      by_cases hpk : p.1 = k
      · simp [Function.comp, hpk]
      · simp [Function.comp, hpk]
    rw [hkeys]
    constructor
    · exact Or.inr
    · rintro (rfl | h)
      · exact (mapHas_iff m x).mp hhas
      · exact h
  · unfold mapKeys
    rw [List.map_append, List.mem_append]
    simp [or_comm]

theorem mapKeys_mapDel (m : GoMap) (k : Int) (x : Int) :
    x ∈ mapKeys (mapDel m k) ↔ x ∈ mapKeys m ∧ x ≠ k := by
  unfold mapDel mapKeys
  constructor
  · intro h
    obtain ⟨p, hp, rfl⟩ := List.mem_map.mp h
    have hf := List.mem_filter.mp hp
    exact ⟨List.mem_map.mpr ⟨p, hf.1, rfl⟩, by simpa using hf.2⟩
  · rintro ⟨h, hne⟩
    obtain ⟨p, hp, rfl⟩ := List.mem_map.mp h
    exact List.mem_map.mpr ⟨p, List.mem_filter.mpr ⟨hp, by simpa using hne⟩, rfl⟩

theorem mem_mapPut {m : GoMap} {k : Int} {v : Goroutine} {e : Int × Goroutine}
    (h : e ∈ mapPut m k v) : e ∈ m ∨ e = (k, v) := by
  unfold mapPut at h
  split at h
  · obtain ⟨p, hp, he⟩ := List.mem_map.mp h
    by_cases hpk : (p.1 == k) = true
    · rw [if_pos hpk] at he
      exact Or.inr he.symm
    · rw [if_neg hpk] at he
      exact Or.inl (he ▸ hp)
  · rcases List.mem_append.mp h with h | h
    · exact Or.inl h
    · simp only [List.mem_singleton] at h
      exact Or.inr h

theorem lonlyInit_keys_aux (L : List Goroutine) :
    ∀ (acc : GoMap) (x : Int),
    x ∈ mapKeys (L.foldl (fun m g => mapPut m g.id g) acc)
      ↔ x ∈ mapKeys acc ∨ x ∈ L.map (fun g => g.id) := by
  induction L with
  | nil => intro acc x; simp
  | cons g L ih =>
    intro acc x
    rw [List.foldl_cons, ih (mapPut acc g.id g) x, mapKeys_mapPut]
    simp only [List.map_cons, List.mem_cons]
    tauto

theorem lonlyInit_keys (L : List Goroutine) (x : Int) :
    x ∈ mapKeys (lonlyInit L) ↔ x ∈ L.map (fun g => g.id) := by
  have h := lonlyInit_keys_aux L [] x
  simpa [lonlyInit, mapKeys] using h

/-- Invariant of the loop over the right dump: given that the remaining
right records have pairwise distinct identities none of which is already
in `common`, the final `lonly` keeps exactly the keys of `lonly` not
seen in the remaining records, `common` gains the remaining identities
present in `lonly`, `ronly` gains those absent from `lonly`, and every
new `common` entry stores the right dump's record under its own
identity. -/
theorem diff_fold :
    ∀ (rs : List Goroutine) (lo co ro : GoMap),
    ((rs.map (fun g => g.id)).Nodup) →
    (∀ g ∈ rs, g.id ∉ mapKeys co) →
    (∀ x, x ∈ mapKeys (rs.foldl diffStep (lo, co, ro)).1
        ↔ x ∈ mapKeys lo ∧ x ∉ rs.map (fun g => g.id))
    ∧ (∀ x, x ∈ mapKeys (rs.foldl diffStep (lo, co, ro)).2.1
        ↔ x ∈ mapKeys co ∨ (x ∈ rs.map (fun g => g.id) ∧ x ∈ mapKeys lo))
    ∧ (∀ x, x ∈ mapKeys (rs.foldl diffStep (lo, co, ro)).2.2
        ↔ x ∈ mapKeys ro ∨ (x ∈ rs.map (fun g => g.id) ∧ x ∉ mapKeys lo))
    ∧ (∀ e ∈ (rs.foldl diffStep (lo, co, ro)).2.1,
        e ∈ co ∨ (e.2 ∈ rs ∧ e.2.id = e.1)) := by
  intro rs
  induction rs with
  | nil =>
    intro lo co ro _ _
    exact ⟨fun x => by simp, fun x => by simp, fun x => by simp,
      fun e he => Or.inl he⟩
  | cons r rs ih =>
    intro lo co ro hnd hco
    rw [List.map_cons, List.nodup_cons] at hnd
    rw [List.foldl_cons]
    by_cases hhas : mapHas lo r.id = true
    · have hstep : diffStep (lo, co, ro) r = (mapDel lo r.id, mapPut co r.id r, ro) := by
        simp [diffStep, hhas]
      rw [hstep]
      have hco' : ∀ g ∈ rs, g.id ∉ mapKeys (mapPut co r.id r) := by
        intro g hg hc
        rcases (mapKeys_mapPut co r.id r g.id).mp hc with he | he
        · exact hnd.1 (he ▸ List.mem_map_of_mem (fun g => g.id) hg)
        · exact hco g (List.mem_cons_of_mem _ hg) he
      obtain ⟨i1, i2, i3, i4⟩ := ih (mapDel lo r.id) (mapPut co r.id r) ro hnd.2 hco'
      have hrid : r.id ∈ mapKeys lo := (mapHas_iff lo r.id).mp hhas
      refine ⟨?_, ?_, ?_, ?_⟩
      · intro x
        rw [i1 x, mapKeys_mapDel]
        constructor
        · rintro ⟨⟨hx, hne⟩, hnr⟩
          refine ⟨hx, ?_⟩
          simp only [List.map_cons, List.mem_cons]
          rintro (he | he)
          · exact hne he
          · exact hnr he
        · rintro ⟨hx, hnr⟩
          simp only [List.map_cons, List.mem_cons] at hnr
          push_neg at hnr
          exact ⟨⟨hx, hnr.1⟩, hnr.2⟩
      · intro x
        rw [i2 x, mapKeys_mapPut, mapKeys_mapDel]
        constructor
        · rintro ((rfl | hc) | ⟨hm, hlo, _⟩)
          · exact Or.inr ⟨by simp, hrid⟩
          · exact Or.inl hc
          · exact Or.inr ⟨by simp [hm], hlo⟩
        · rintro (hc | ⟨hm, hlo⟩)
          · exact Or.inl (Or.inr hc)
          · simp only [List.map_cons, List.mem_cons] at hm
            rcases hm with rfl | hm
            · exact Or.inl (Or.inl rfl)
            · exact Or.inr ⟨hm, hlo, fun he => hnd.1 (he ▸ hm)⟩
      · intro x
        rw [i3 x]
        constructor
        · rintro (hc | ⟨hm, hndel⟩)
          · exact Or.inl hc
          · have hxne : x ≠ r.id := fun he => hnd.1 (he ▸ hm)
            have hxlo : x ∉ mapKeys lo :=
              fun hc' => hndel ((mapKeys_mapDel lo r.id x).mpr ⟨hc', hxne⟩)
            exact Or.inr ⟨by simp [hm], hxlo⟩
        · rintro (hc | ⟨hm, hnlo⟩)
          · exact Or.inl hc
          · simp only [List.map_cons, List.mem_cons] at hm
            rcases hm with rfl | hm
            · exact absurd hrid hnlo
            · exact Or.inr ⟨hm, fun hc' =>
                hnlo ((mapKeys_mapDel lo r.id x).mp hc').1⟩
      · intro e he
        rcases i4 e he with hc | ⟨hm, hid⟩
        · rcases mem_mapPut hc with hc' | rfl
          · exact Or.inl hc'
          · exact Or.inr ⟨by simp, rfl⟩
        · exact Or.inr ⟨List.mem_cons_of_mem _ hm, hid⟩
    · have hstep : diffStep (lo, co, ro) r = (lo, co, mapPut ro r.id r) := by
        simp [diffStep, hhas]
      rw [hstep]
      have hco' : ∀ g ∈ rs, g.id ∉ mapKeys co :=
        fun g hg => hco g (List.mem_cons_of_mem _ hg)
      obtain ⟨i1, i2, i3, i4⟩ := ih lo co (mapPut ro r.id r) hnd.2 hco'
      have hrid : r.id ∉ mapKeys lo := fun hc => hhas ((mapHas_iff lo r.id).mpr hc)
      refine ⟨?_, ?_, ?_, ?_⟩
      · intro x
        rw [i1 x]
        constructor
        · rintro ⟨hx, hnr⟩
          refine ⟨hx, ?_⟩
          simp only [List.map_cons, List.mem_cons]
          rintro (rfl | he)
          · exact hrid hx
          · exact hnr he
        · rintro ⟨hx, hnr⟩
          simp only [List.map_cons, List.mem_cons] at hnr
          push_neg at hnr
          exact ⟨hx, hnr.2⟩
      · intro x
        rw [i2 x]
        constructor
        · rintro (hc | ⟨hm, hlo⟩)
          · exact Or.inl hc
          · exact Or.inr ⟨by simp [hm], hlo⟩
        · rintro (hc | ⟨hm, hlo⟩)
          · exact Or.inl hc
          · simp only [List.map_cons, List.mem_cons] at hm
            rcases hm with rfl | hm
            · exact absurd hlo hrid
            · exact Or.inr ⟨hm, hlo⟩
      · intro x
        rw [i3 x, mapKeys_mapPut]
        constructor
        · rintro ((rfl | hc) | ⟨hm, hnlo⟩)
          · exact Or.inr ⟨by simp, hrid⟩
          · exact Or.inl hc
          · exact Or.inr ⟨by simp [hm], hnlo⟩
        · rintro (hc | ⟨hm, hnlo⟩)
          · exact Or.inl (Or.inr hc)
          · simp only [List.map_cons, List.mem_cons] at hm
            rcases hm with rfl | hm
            · exact Or.inl (Or.inl rfl)
            · exact Or.inr ⟨hm, hnlo⟩
      · intro e he
        rcases i4 e he with hc | ⟨hm, hid⟩
        · exact Or.inl hc
        · exact Or.inr ⟨List.mem_cons_of_mem _ hm, hid⟩

/-! ## Claim C4 — Diff partition -/

/-- C4: when identities are unique within each input collection, the
three Diff outputs partition the union of the identity sets — `lonly`
holds the identities only in L, `common` those in both (retaining R's
record instance), `ronly` those only in R; the three key sets are
pairwise disjoint and cover exactly the union. -/
theorem C4_diff_partition (L R : List Goroutine)
    (hL : (L.map (fun g => g.id)).Nodup) (hR : (R.map (fun g => g.id)).Nodup) :
    (∀ k, k ∈ mapKeys (Diff L R).1
        ↔ (k ∈ L.map (fun g => g.id) ∧ k ∉ R.map (fun g => g.id)))
    ∧ (∀ k, k ∈ mapKeys (Diff L R).2.1
        ↔ (k ∈ L.map (fun g => g.id) ∧ k ∈ R.map (fun g => g.id)))
    ∧ (∀ k, k ∈ mapKeys (Diff L R).2.2
        ↔ (k ∈ R.map (fun g => g.id) ∧ k ∉ L.map (fun g => g.id)))
    ∧ (∀ k, ¬(k ∈ mapKeys (Diff L R).1 ∧ k ∈ mapKeys (Diff L R).2.1))
    ∧ (∀ k, ¬(k ∈ mapKeys (Diff L R).1 ∧ k ∈ mapKeys (Diff L R).2.2))
    ∧ (∀ k, ¬(k ∈ mapKeys (Diff L R).2.1 ∧ k ∈ mapKeys (Diff L R).2.2))
    ∧ (∀ k, (k ∈ mapKeys (Diff L R).1 ∨ k ∈ mapKeys (Diff L R).2.1
          ∨ k ∈ mapKeys (Diff L R).2.2)
        ↔ (k ∈ L.map (fun g => g.id) ∨ k ∈ R.map (fun g => g.id)))
    ∧ (∀ e ∈ (Diff L R).2.1, e.2 ∈ R ∧ e.2.id = e.1) := by
  obtain ⟨i1, i2, i3, i4⟩ :=
    diff_fold R (lonlyInit L) [] [] hR (by simp [mapKeys])
  have hDiff : Diff L R = R.foldl diffStep (lonlyInit L, [], []) := rfl
  have p1 : ∀ k, k ∈ mapKeys (Diff L R).1
      ↔ (k ∈ L.map (fun g => g.id) ∧ k ∉ R.map (fun g => g.id)) := by
    intro k
    rw [hDiff, i1 k, lonlyInit_keys]
  have p2 : ∀ k, k ∈ mapKeys (Diff L R).2.1
      ↔ (k ∈ L.map (fun g => g.id) ∧ k ∈ R.map (fun g => g.id)) := by
    intro k
    rw [hDiff, i2 k, lonlyInit_keys]
    simp [mapKeys, and_comm]
  have p3 : ∀ k, k ∈ mapKeys (Diff L R).2.2
      ↔ (k ∈ R.map (fun g => g.id) ∧ k ∉ L.map (fun g => g.id)) := by
    intro k
    rw [hDiff, i3 k, lonlyInit_keys]
    simp [mapKeys]
  refine ⟨p1, p2, p3, ?_, ?_, ?_, ?_, ?_⟩
  · intro k
    rw [p1 k, p2 k]
    tauto
  · intro k
    rw [p1 k, p3 k]
    tauto
  · intro k
    rw [p2 k, p3 k]
    tauto
  · intro k
    rw [p1 k, p2 k, p3 k]
    tauto
  · intro e he
    rw [hDiff] at he
    rcases i4 e he with hc | h
    · cases hc
    · exact h

/-- Witness for C4 at concrete collections `L = [gA1, gB]` (identities
1, 2) and `R = [gB, gA2]` (identities 2, 3). -/
theorem C4_diff_partition_witness :
    (∀ k, k ∈ mapKeys (Diff [gA1, gB] [gB, gA2]).1
        ↔ (k ∈ [gA1, gB].map (fun g => g.id) ∧ k ∉ [gB, gA2].map (fun g => g.id)))
    ∧ (∀ k, k ∈ mapKeys (Diff [gA1, gB] [gB, gA2]).2.1
        ↔ (k ∈ [gA1, gB].map (fun g => g.id) ∧ k ∈ [gB, gA2].map (fun g => g.id)))
    ∧ (∀ k, k ∈ mapKeys (Diff [gA1, gB] [gB, gA2]).2.2
        ↔ (k ∈ [gB, gA2].map (fun g => g.id) ∧ k ∉ [gA1, gB].map (fun g => g.id)))
    ∧ (∀ k, ¬(k ∈ mapKeys (Diff [gA1, gB] [gB, gA2]).1
        ∧ k ∈ mapKeys (Diff [gA1, gB] [gB, gA2]).2.1))
    ∧ (∀ k, ¬(k ∈ mapKeys (Diff [gA1, gB] [gB, gA2]).1
        ∧ k ∈ mapKeys (Diff [gA1, gB] [gB, gA2]).2.2))
    ∧ (∀ k, ¬(k ∈ mapKeys (Diff [gA1, gB] [gB, gA2]).2.1
        ∧ k ∈ mapKeys (Diff [gA1, gB] [gB, gA2]).2.2))
    ∧ (∀ k, (k ∈ mapKeys (Diff [gA1, gB] [gB, gA2]).1
          ∨ k ∈ mapKeys (Diff [gA1, gB] [gB, gA2]).2.1
          ∨ k ∈ mapKeys (Diff [gA1, gB] [gB, gA2]).2.2)
        ↔ (k ∈ [gA1, gB].map (fun g => g.id) ∨ k ∈ [gB, gA2].map (fun g => g.id)))
    ∧ (∀ e ∈ (Diff [gA1, gB] [gB, gA2]).2.1, e.2 ∈ [gB, gA2] ∧ e.2.id = e.1) :=
  C4_diff_partition [gA1, gB] [gB, gA2] (by decide) (by decide)
